import Mathlib

/-!
# Bond Assessment Tool — verified model of the bond-math engine

A shallow embedding, over exact rational arithmetic, of the bond-math
functions of the Bond Assessment Tool (`priceBond`, `macaulayDuration`,
`modifiedDuration`, `yieldToWorstApprox`) and of the derived computation
(`computed`) that produces the pricing metrics and the 41-point
price-versus-yield chart grid.
-/

namespace BondTool

/-- JavaScript `Math.round`: rounds half away from negative infinity,
i.e. `round x = ⌊x + 1/2⌋` (stated via the executable `Rat.floor`;
see `jsRound_eq_floor`). -/
def jsRound (q : ℚ) : ℤ := Rat.floor (q + 1/2)

/-- The input record of the bond-math engine, with the default field
values of the source. -/
structure BondTerms where
  face : ℚ := 1000
  couponRate : ℚ := 5/100
  ytm : ℚ := 5/100
  years : ℚ := 10
  freq : ℕ := 2
  callable : Bool := false
  callYears : ℚ := 5
  callPrice : ℚ := 1000

/-- The period count `n = Math.max(1, Math.round(years * freq))` used
throughout the engine. -/
def nPeriods (years : ℚ) (freq : ℕ) : ℕ :=
  (max 1 (jsRound (years * freq))).toNat

/-- The accumulation loop `for (let t = 1; t <= n; t++) pvCoupons += c / (1+r)^t`. -/
def pvCoupons (c r : ℚ) : ℕ → ℚ
  | 0 => 0
  | n + 1 => pvCoupons c r n + c / (1 + r) ^ (n + 1)

/-- The function `priceBond`: present value of a plain-vanilla fixed-rate bond. -/
def priceBond (b : BondTerms) : ℚ :=
  let n := nPeriods b.years b.freq
  let c := b.couponRate * b.face / b.freq
  let r := b.ytm / b.freq
  pvCoupons c r n + b.face / (1 + r) ^ n

/-- The accumulation loop of `macaulayDuration`:
`num += (tYears * cf) / (1+r)^t` for `t = 1..k`, where the cash flow at the
final period `n` is coupon plus face. -/
def durNum (c face r : ℚ) (freq n : ℕ) : ℕ → ℚ
  | 0 => 0
  | t + 1 =>
    durNum c face r freq n t +
      ((t + 1 : ℚ) / freq * (if t + 1 = n then c + face else c)) / (1 + r) ^ (t + 1)

/-- The function `macaulayDuration`: PV-weighted average time to cash-flow
receipt, in years. -/
def macaulayDuration (b : BondTerms) : ℚ :=
  let n := nPeriods b.years b.freq
  let c := b.couponRate * b.face / b.freq
  let r := b.ytm / b.freq
  durNum c b.face r b.freq n n / priceBond b

/-- The function `modifiedDuration`: Macaulay duration divided by
`(1 + ytm/freq)`. -/
def modifiedDuration (b : BondTerms) : ℚ :=
  macaulayDuration b / (1 + b.ytm / b.freq)

/-- The present value computed at a candidate per-period rate `r` inside the
yield-to-call bisection: `pv = Σ_{t=1..n} c/(1+r)^t + callPrice/(1+r)^n`. -/
def pvAt (c callPrice r : ℚ) (n : ℕ) : ℚ :=
  pvCoupons c r n + callPrice / (1 + r) ^ n

/-- One iteration of the bisection in `yieldToWorstApprox`:
at the midpoint, compute the PV of the coupons to the call date plus the
discounted call price; `if (pv > target) lo = mid; else hi = mid`. -/
def bisectStep (c callPrice target : ℚ) (n : ℕ) (p : ℚ × ℚ) : ℚ × ℚ :=
  let mid := (p.1 + p.2) / 2
  if pvAt c callPrice mid n > target then (mid, p.2) else (p.1, mid)

/-- The bisection loop `for (let iter = 0; iter < k; iter++) ...`. -/
def bisect (c callPrice target : ℚ) (n : ℕ) : ℕ → ℚ × ℚ → ℚ × ℚ
  | 0, p => p
  | k + 1, p => bisect c callPrice target n k (bisectStep c callPrice target n p)

/-- The function `yieldToWorstApprox`: `ytm` when not callable, otherwise the minimum of
`ytm` and the yield-to-call approximated by a 60-iteration bisection on the
per-period rate starting from the bounds `lo = -0.99`, `hi = 1.0`. -/
def yieldToWorstApprox (b : BondTerms) : ℚ :=
  if !b.callable then b.ytm
  else
    let marketPrice := priceBond b
    let n := nPeriods b.callYears b.freq
    let c := b.couponRate * b.face / b.freq
    let lh := bisect c b.callPrice marketPrice n 60 (-(99/100), 1)
    let rMid := (lh.1 + lh.2) / 2
    let ytc := max (-(99/100)) ((1 + rMid) ^ b.freq - 1)
    min b.ytm ytc

/-- The call date used by the component:
`Math.min(years, Math.max(2, Math.round(years / 2)))`. -/
def callYearsOf (years : ℚ) : ℚ :=
  min years (max 2 ((jsRound (years / 2) : ℚ)))

/-- The sampled yield of a grid point:
`Math.max(0.0001, ytm + bps / 10000)`. -/
def sampleYld (ytm : ℚ) (bps : ℤ) : ℚ :=
  max (1/10000) (ytm + (bps : ℚ) / 10000)

/-- One record of the chart dataset: `{ yld, Price, "Price (Callable est)" }`. -/
structure ChartPoint where
  yld : ℚ
  price : ℚ
  priceCallable : ℚ

/-- One turn of the chart-building loop, at basis-point offset `bps`. -/
def gridPoint (face couponRate ytm years : ℚ) (freq : ℕ) (callable : Bool)
    (bps : ℤ) : ChartPoint :=
  let y := sampleYld ytm bps
  let p := priceBond { face := face, couponRate := couponRate, ytm := y,
                       years := years, freq := freq }
  if callable then
    let ytwGrid := yieldToWorstApprox
      { face := face, couponRate := couponRate, ytm := y, years := years,
        freq := freq, callable := callable, callYears := callYearsOf years,
        callPrice := face }
    ⟨y * 100, p, priceBond { face := face, couponRate := couponRate,
                             ytm := ytwGrid, years := years, freq := freq }⟩
  else
    ⟨y * 100, p, p⟩

/-- The basis-point offsets of the loop `for (let bps = -200; bps <= 200; bps += 10)`. -/
def gridBps : List ℤ := (List.range 41).map (fun i : ℕ => -200 + 10 * (i : ℤ))

/-- The chart dataset `computed.points`: one `ChartPoint` per offset. -/
def pointsList (face couponRate ytm years : ℚ) (freq : ℕ) (callable : Bool) :
    List ChartPoint :=
  gridBps.map (gridPoint face couponRate ytm years freq callable)

/-- The record of numeric outputs of the `computed` memo. -/
structure Computed where
  price : ℚ
  Dmac : ℚ
  Dmod : ℚ
  cy : ℚ
  ytw : ℚ
  points : List ChartPoint

/-- The `computed` memo of the component: converts the percentage inputs to
decimals and produces every numeric output.  The `putable`, `sinking` and
`convertible` checkbox states are passed in but, as in the source, never
read. -/
def computed (face couponPct ytmPct years : ℚ) (freq : ℕ)
    (callable putable sinking convertible : Bool) : Computed :=
  let couponRate := couponPct / 100
  let ytm := ytmPct / 100
  let b : BondTerms :=
    { face := face, couponRate := couponRate, ytm := ytm, years := years, freq := freq }
  let price := priceBond b
  let Dmac := macaulayDuration b
  let Dmod := modifiedDuration b
  let cy := couponRate * face / price
  let ytw := yieldToWorstApprox
    { face := face, couponRate := couponRate, ytm := ytm, years := years,
      freq := freq, callable := callable, callYears := callYearsOf years,
      callPrice := face }
  ⟨price, Dmac, Dmod, cy, ytw, pointsList face couponRate ytm years freq callable⟩

/-- One bisection iteration as the specification words it: the present value,
at the midpoint, of the coupons to the call date plus the discounted call
price, written as a `Finset` sum; the lower bound moves up to the midpoint
when that PV exceeds the target and the upper bound moves down otherwise. -/
def bisectStepSpec (c callPrice target : ℚ) (n : ℕ) (p : ℚ × ℚ) : ℚ × ℚ :=
  let mid := (p.1 + p.2) / 2
  let pv := (∑ t in Finset.Icc 1 n, c / (1 + mid) ^ t) + callPrice / (1 + mid) ^ n
  if pv > target then (mid, p.2) else (p.1, mid)

/-- The `i`-th sampled yield of the grid (index `i = 0..40` corresponds to the
offset `bps = -200 + 10*i`). -/
def gridYld (ytm : ℚ) (i : ℕ) : ℚ := sampleYld ytm (-200 + 10 * (i : ℤ))

/-- The sampled-yield sequence is symmetric around `ytm`: entries `i` and
`40 - i` average to `ytm`. -/
def gridSymmetric (ytm : ℚ) : Prop :=
  ∀ i : ℕ, i ≤ 40 → gridYld ytm i + gridYld ytm (40 - i) = 2 * ytm

/-- The yield passed to `priceBond` by the callable branch of the grid loop:
the yield-to-worst approximation evaluated at the sampled yield, with the
midpoint call date and call price equal to face. -/
def gridCallableRate (face couponRate ytm years : ℚ) (freq : ℕ) (bps : ℤ) : ℚ :=
  yieldToWorstApprox
    { face := face, couponRate := couponRate, ytm := sampleYld ytm bps,
      years := years, freq := freq, callable := true,
      callYears := callYearsOf years, callPrice := face }

/-- The default input record: `face=1000, couponRate=0.05, ytm=0.05, years=10,
freq=2`, not callable. -/
def parTerms : BondTerms := {}

/-- A callable bond at its own maturity: `face=1000, couponRate=0.05,
ytm=0.04, years=1, freq=2, callYears=1, callPrice=1000`. -/
def cexTerms : BondTerms :=
  { face := 1000, couponRate := 5/100, ytm := 4/100, years := 1, freq := 2,
    callable := true, callYears := 1, callPrice := 1000 }

/-- The terms the callable branch of the grid loop hands to
`yieldToWorstApprox` at inputs `face=1000, couponPct=5, ytmPct=0, years=4,
freq=1` and offset `bps=-200`: the sampled yield is floored at `0.0001` and
the call date is `min(4, max(2, round(2))) = 2`. -/
def c4Terms : BondTerms :=
  { face := 1000, couponRate := 5/100, ytm := 1/10000, years := 4, freq := 1,
    callable := true, callYears := 2, callPrice := 1000 }

/-- The default input record with the callable flag set. -/
def callTerms : BondTerms := { callable := true }

theorem jsRound_eq_floor (q : ℚ) : jsRound q = ⌊q + 1/2⌋ := by
  rw [jsRound, Rat.floor_def, Rat.floor_def']

theorem nPeriods_pos (years : ℚ) (freq : ℕ) : 1 ≤ nPeriods years freq := by
  have h : (1 : ℤ) ≤ max 1 (jsRound (years * freq)) := le_max_left _ _
  have := Int.toNat_le_toNat h
  simpa [nPeriods] using this

theorem pvCoupons_eq_sum (c r : ℚ) (n : ℕ) :
    pvCoupons c r n = ∑ t in Finset.Icc 1 n, c / (1 + r) ^ t := by
  induction n with
  | zero => simp [pvCoupons]
  | succ n ih =>
    rw [pvCoupons, ih, ← Finset.sum_Icc_succ_top (Nat.le_add_left 1 n)]

theorem pvCoupons_nonneg {c r : ℚ} (hc : 0 ≤ c) (hr : 0 < 1 + r) (n : ℕ) :
    0 ≤ pvCoupons c r n := by
  induction n with
  | zero => simp [pvCoupons]
  | succ n ih =>
    have ht : 0 ≤ c / (1 + r) ^ (n + 1) := div_nonneg hc (le_of_lt (pow_pos hr _))
    rw [pvCoupons]
    linarith

theorem pvCoupons_anti {c r₁ r₂ : ℚ} (hc : 0 ≤ c) (h1 : 0 < 1 + r₁) (h12 : r₁ ≤ r₂)
    (n : ℕ) : pvCoupons c r₂ n ≤ pvCoupons c r₁ n := by
  induction n with
  | zero => simp [pvCoupons]
  | succ n ih =>
    have hp1 : (0:ℚ) < (1 + r₁) ^ (n + 1) := pow_pos h1 _
    have hple : (1 + r₁) ^ (n + 1) ≤ (1 + r₂) ^ (n + 1) :=
      pow_le_pow_left₀ (le_of_lt h1) (by linarith) _
    have ht : c / (1 + r₂) ^ (n + 1) ≤ c / (1 + r₁) ^ (n + 1) :=
      div_le_div_of_nonneg_left hc hp1 hple
    rw [pvCoupons, pvCoupons]
    linarith

/-- The present value used inside the bisection is strictly decreasing in the
per-period rate (for a nonnegative coupon, a positive redemption amount and
at least one period). -/
theorem pvAt_strictAnti {c K r₁ r₂ : ℚ} (hc : 0 ≤ c) (hK : 0 < K)
    (h1 : 0 < 1 + r₁) (h12 : r₁ < r₂) {n : ℕ} (hn : 1 ≤ n) :
    pvAt c K r₂ n < pvAt c K r₁ n := by
  have hcoup : pvCoupons c r₂ n ≤ pvCoupons c r₁ n :=
    pvCoupons_anti hc h1 (le_of_lt h12) n
  have hp1 : (0:ℚ) < (1 + r₁) ^ n := pow_pos h1 _
  have hplt : (1 + r₁) ^ n < (1 + r₂) ^ n :=
    pow_lt_pow_left₀ (by linarith) (le_of_lt h1) (by omega)
  have hface : K / (1 + r₂) ^ n < K / (1 + r₁) ^ n :=
    div_lt_div_of_pos_left hK hp1 hplt
  rw [pvAt, pvAt]
  linarith

/-- Par identity: when the per-period coupon is `face * r`, the price telescopes
to exactly `face`, for any number of periods. -/
theorem pvCoupons_par (face r : ℚ) (h : (1:ℚ) + r ≠ 0) (n : ℕ) :
    pvCoupons (face * r) r n + face / (1 + r) ^ n = face := by
  induction n with
  | zero => simp [pvCoupons]
  | succ n ih =>
    have hpow : ((1:ℚ) + r) ^ (n + 1) ≠ 0 := pow_ne_zero _ h
    have hstep : face * r / (1 + r) ^ (n + 1) + face / (1 + r) ^ (n + 1)
        = face / (1 + r) ^ n := by
      rw [div_add_div_same, div_eq_div_iff hpow (pow_ne_zero n h), pow_succ]
      ring
    rw [pvCoupons]
    linarith

/-- Nesting and width of the bisection interval: the interval never leaves the
initial one, stays ordered, and its width halves at every iteration. -/
theorem bisect_nest (c K t : ℚ) (n : ℕ) :
    ∀ (k : ℕ) (p : ℚ × ℚ), p.1 ≤ p.2 →
      p.1 ≤ (bisect c K t n k p).1 ∧ (bisect c K t n k p).2 ≤ p.2 ∧
        (bisect c K t n k p).1 ≤ (bisect c K t n k p).2 ∧
        (bisect c K t n k p).2 - (bisect c K t n k p).1 = (p.2 - p.1) / 2 ^ k := by
  intro k
  induction k with
  | zero => intro p hp; simp [bisect, hp]
  | succ k ih =>
    intro p hp
    have h2k : ((2:ℚ) ^ k) ≠ 0 := by positivity
    have hmid1 : p.1 ≤ (p.1 + p.2) / 2 := by linarith
    have hmid2 : (p.1 + p.2) / 2 ≤ p.2 := by linarith
    simp only [bisect]
    by_cases hcond : pvAt c K ((p.1 + p.2) / 2) n > t
    · have hstep : bisectStep c K t n p = ((p.1 + p.2) / 2, p.2) := by
        simp [bisectStep, hcond]
      rw [hstep]
      obtain ⟨h1, h2, h3, h4⟩ := ih ((p.1 + p.2) / 2, p.2) hmid2
      refine ⟨le_trans hmid1 h1, h2, h3, ?_⟩
      rw [h4, pow_succ]
      field_simp
      ring
    · have hstep : bisectStep c K t n p = (p.1, (p.1 + p.2) / 2) := by
        simp [bisectStep, hcond]
      rw [hstep]
      obtain ⟨h1, h2, h3, h4⟩ := ih (p.1, (p.1 + p.2) / 2) hmid1
      refine ⟨h1, le_trans h2 hmid2, h3, ?_⟩
      rw [h4, pow_succ]
      field_simp
      ring

/-- Bracketing invariant of the bisection: if the PV at the lower bound
exceeds the target and the PV at the upper bound does not, the same holds
after any number of iterations. -/
theorem bisect_bracket (c K t : ℚ) (n : ℕ) :
    ∀ (k : ℕ) (p : ℚ × ℚ), pvAt c K p.1 n > t → ¬pvAt c K p.2 n > t →
      pvAt c K (bisect c K t n k p).1 n > t ∧
        ¬pvAt c K (bisect c K t n k p).2 n > t := by
  intro k
  induction k with
  | zero => intro p hlo hhi; exact ⟨by simpa [bisect] using hlo, by simpa [bisect] using hhi⟩
  | succ k ih =>
    intro p hlo hhi
    simp only [bisect]
    by_cases hcond : pvAt c K ((p.1 + p.2) / 2) n > t
    · have hstep : bisectStep c K t n p = ((p.1 + p.2) / 2, p.2) := by
        simp [bisectStep, hcond]
      rw [hstep]
      exact ih _ hcond hhi
    · have hstep : bisectStep c K t n p = (p.1, (p.1 + p.2) / 2) := by
        simp [bisectStep, hcond]
      rw [hstep]
      exact ih _ hlo hcond

/-- The fuelled bisection loop is iteration of the single step. -/
theorem bisect_eq_iterate (c K t : ℚ) (n : ℕ) :
    ∀ (k : ℕ) (p : ℚ × ℚ), bisect c K t n k p = (bisectStep c K t n)^[k] p := by
  intro k
  induction k with
  | zero => intro p; simp [bisect]
  | succ k ih =>
    intro p
    rw [Function.iterate_succ_apply]
    simp only [bisect]
    exact ih _

/-- The coded bisection step agrees with the specification-worded one. -/
theorem bisectStep_eq_spec (c K t : ℚ) (n : ℕ) :
    bisectStep c K t n = bisectStepSpec c K t n := by
  funext p
  simp [bisectStep, bisectStepSpec, pvAt, pvCoupons_eq_sum]

/-- Par identity for `priceBond`: when the coupon rate equals the yield and the
yield is nonnegative, the price is exactly the face value. -/
theorem priceBond_par_aux (b : BondTerms) (hcr : b.couponRate = b.ytm)
    (hytm : 0 ≤ b.ytm) : priceBond b = b.face := by
  have hr0 : (0:ℚ) ≤ b.ytm / b.freq := div_nonneg hytm (Nat.cast_nonneg _)
  have hr : (1:ℚ) + b.ytm / b.freq ≠ 0 := by linarith
  have hc : b.couponRate * b.face / b.freq = b.face * (b.ytm / b.freq) := by
    rw [hcr]; ring
  simp only [priceBond]
  rw [hc, pvCoupons_par b.face (b.ytm / b.freq) hr]

/-- Strict inverse price/yield relationship for `priceBond`. -/
theorem priceBond_anti_aux (b : BondTerms) (y₁ y₂ : ℚ) (hface : 0 < b.face)
    (hcr : 0 ≤ b.couponRate) (hf : 1 ≤ b.freq) (h1 : 0 ≤ y₁) (h12 : y₁ < y₂) :
    priceBond { b with ytm := y₂ } < priceBond { b with ytm := y₁ } := by
  have hfq : (0:ℚ) < b.freq := by exact_mod_cast hf
  have hr12 : y₁ / b.freq < y₂ / b.freq := (div_lt_div_iff_of_pos_right hfq).2 h12
  have hr1 : 0 ≤ y₁ / b.freq := div_nonneg h1 (le_of_lt hfq)
  have hc : 0 ≤ b.couponRate * b.face / b.freq :=
    div_nonneg (mul_nonneg hcr (le_of_lt hface)) (le_of_lt hfq)
  have h₁ : priceBond { b with ytm := y₁ } =
      pvAt (b.couponRate * b.face / b.freq) b.face (y₁ / b.freq)
        (nPeriods b.years b.freq) := rfl
  have h₂ : priceBond { b with ytm := y₂ } =
      pvAt (b.couponRate * b.face / b.freq) b.face (y₂ / b.freq)
        (nPeriods b.years b.freq) := rfl
  rw [h₁, h₂]
  exact pvAt_strictAnti hc hface (by linarith) hr12 (nPeriods_pos _ _)

theorem priceBond_nonneg (b : BondTerms) (hface : 0 ≤ b.face)
    (hcr : 0 ≤ b.couponRate) (hytm : 0 ≤ b.ytm) : 0 ≤ priceBond b := by
  have hr0 : (0:ℚ) ≤ b.ytm / b.freq := div_nonneg hytm (Nat.cast_nonneg _)
  have hc : 0 ≤ b.couponRate * b.face / b.freq :=
    div_nonneg (mul_nonneg hcr hface) (Nat.cast_nonneg _)
  have h1 : (0:ℚ) < 1 + b.ytm / b.freq := by linarith
  simp only [priceBond]
  have hcoup := pvCoupons_nonneg hc h1 (nPeriods b.years b.freq)
  have hfaceterm : 0 ≤ b.face / (1 + b.ytm / b.freq) ^ nPeriods b.years b.freq :=
    div_nonneg hface (le_of_lt (pow_pos h1 _))
  linarith

theorem durNum_nonneg {c face r : ℚ} (hc : 0 ≤ c) (hface : 0 ≤ face)
    (hr : 0 < 1 + r) (freq n : ℕ) : ∀ k, 0 ≤ durNum c face r freq n k := by
  intro k
  induction k with
  | zero => simp [durNum]
  | succ k ih =>
    have hcf : (0:ℚ) ≤ if k + 1 = n then c + face else c := by
      split <;> linarith
    have hw : (0:ℚ) ≤ (k + 1 : ℚ) / freq := by positivity
    have ht : (0:ℚ) ≤ ((k + 1 : ℚ) / freq * (if k + 1 = n then c + face else c)) /
        (1 + r) ^ (k + 1) := div_nonneg (mul_nonneg hw hcf) (le_of_lt (pow_pos hr _))
    rw [durNum]
    linarith

/-- Unfolding of the callable branch of `yieldToWorstApprox`. -/
theorem ytw_callable_eq (b : BondTerms) (h : b.callable = true) :
    yieldToWorstApprox b =
      min b.ytm (max (-(99/100))
        ((1 + ((bisect (b.couponRate * b.face / b.freq) b.callPrice (priceBond b)
                  (nPeriods b.callYears b.freq) 60 (-(99/100), 1)).1 +
               (bisect (b.couponRate * b.face / b.freq) b.callPrice (priceBond b)
                  (nPeriods b.callYears b.freq) 60 (-(99/100), 1)).2) / 2) ^ b.freq
          - 1)) := by
  simp only [yieldToWorstApprox, h, Bool.not_true, Bool.false_eq_true, if_false]

/-- C1: `priceBond` returns the sum, over `t = 1..n`, of the coupon discounted
by `(1+r)^t`, plus the face discounted by `(1+r)^n`, with
`n = max(1, round(years*freq))`; for `years=0.5, freq=12` it uses `n = 6`, and
whenever `years*freq` rounds to `0` it uses `n = 1`. -/
theorem priceBond_closed_form (b : BondTerms) (hf : 1 ≤ b.freq)
    (hr : (1:ℚ) + b.ytm / b.freq ≠ 0) :
    priceBond b =
      (∑ t in Finset.Icc 1 (nPeriods b.years b.freq),
        b.couponRate * b.face / b.freq / (1 + b.ytm / b.freq) ^ t) +
      b.face / (1 + b.ytm / b.freq) ^ (nPeriods b.years b.freq) ∧
    (nPeriods b.years b.freq : ℤ) = max 1 (jsRound (b.years * b.freq)) ∧
    nPeriods (1/2) 12 = 6 ∧
    (∀ (y : ℚ) (f : ℕ), jsRound (y * f) = 0 → nPeriods y f = 1) := by
  refine ⟨?_, ?_, ?_, ?_⟩
  · simp only [priceBond]
    rw [pvCoupons_eq_sum]
  · rw [nPeriods, Int.toNat_of_nonneg]
    exact le_trans zero_le_one (le_max_left _ _)
  · with_unfolding_all rfl
  · intro y f h
    rw [nPeriods, h]
    rfl

theorem priceBond_closed_form_witness :
    1 ≤ parTerms.freq ∧ (1:ℚ) + parTerms.ytm / parTerms.freq ≠ 0 ∧
      priceBond parTerms =
        (∑ t in Finset.Icc 1 (nPeriods parTerms.years parTerms.freq),
          parTerms.couponRate * parTerms.face / parTerms.freq /
            (1 + parTerms.ytm / parTerms.freq) ^ t) +
        parTerms.face /
          (1 + parTerms.ytm / parTerms.freq) ^ nPeriods parTerms.years parTerms.freq :=
  ⟨by norm_num [parTerms], by norm_num [parTerms],
    (priceBond_closed_form parTerms (by norm_num [parTerms])
      (by norm_num [parTerms])).1⟩

/-- C2: `yieldToWorstApprox` returns `ytm` unchanged when not callable; when
callable it returns `min ytm (max (-0.99) ((1+r)^freq - 1))` where `r` is the
midpoint remaining after exactly 60 bisection iterations starting from
`lo = -0.99, hi = 1.0`, each iteration moving `lo` up to the midpoint when the
present value there of the coupons to the call date plus the discounted call
price exceeds the market price (the full-maturity `priceBond`), and `hi` down
otherwise. -/
theorem yieldToWorstApprox_spec (b : BondTerms) :
    (b.callable = false → yieldToWorstApprox b = b.ytm) ∧
    (b.callable = true →
      yieldToWorstApprox b =
        min b.ytm (max (-(99/100))
          ((1 + (((bisectStepSpec (b.couponRate * b.face / b.freq) b.callPrice
                    (priceBond b) (nPeriods b.callYears b.freq))^[60]
                    (-(99/100), 1)).1 +
                 ((bisectStepSpec (b.couponRate * b.face / b.freq) b.callPrice
                    (priceBond b) (nPeriods b.callYears b.freq))^[60]
                    (-(99/100), 1)).2) / 2) ^ b.freq - 1))) := by
  constructor
  · intro h
    simp [yieldToWorstApprox, h]
  · intro h
    rw [ytw_callable_eq b h, bisect_eq_iterate, bisectStep_eq_spec]

theorem yieldToWorstApprox_spec_witness :
    yieldToWorstApprox parTerms = parTerms.ytm ∧
    yieldToWorstApprox callTerms =
      min callTerms.ytm (max (-(99/100))
        ((1 + (((bisectStepSpec (callTerms.couponRate * callTerms.face / callTerms.freq)
                  callTerms.callPrice (priceBond callTerms)
                  (nPeriods callTerms.callYears callTerms.freq))^[60]
                  (-(99/100), 1)).1 +
               ((bisectStepSpec (callTerms.couponRate * callTerms.face / callTerms.freq)
                  callTerms.callPrice (priceBond callTerms)
                  (nPeriods callTerms.callYears callTerms.freq))^[60]
                  (-(99/100), 1)).2) / 2) ^ callTerms.freq - 1)) :=
  ⟨(yieldToWorstApprox_spec parTerms).1 rfl, (yieldToWorstApprox_spec callTerms).2 rfl⟩

/-- C6: a bond whose coupon rate equals its (nonnegative) yield prices exactly
at par. -/
theorem priceBond_par_bond (b : BondTerms) (hface : 0 < b.face) (hf : 1 ≤ b.freq)
    (hy : 0 < b.years) (hcr : b.couponRate = b.ytm) (hytm : 0 ≤ b.ytm) :
    priceBond b = b.face :=
  priceBond_par_aux b hcr hytm

theorem priceBond_par_bond_witness :
    0 < parTerms.face ∧ 1 ≤ parTerms.freq ∧ 0 < parTerms.years ∧
      parTerms.couponRate = parTerms.ytm ∧ 0 ≤ parTerms.ytm ∧
      priceBond parTerms = 1000 :=
  ⟨by norm_num [parTerms], by norm_num [parTerms], by norm_num [parTerms], rfl,
    by norm_num [parTerms],
    (priceBond_par_bond parTerms (by norm_num [parTerms]) (by norm_num [parTerms])
      (by norm_num [parTerms]) rfl (by norm_num [parTerms])).trans rfl⟩

/-- C5: `priceBond` is strictly decreasing in `ytm` on `ytm ≥ 0` (face
positive, coupon rate nonnegative, positive maturity, `freq ≥ 1`); in
particular the default terms price below 1000 at `ytm = 0.06` and above 1000
at `ytm = 0.04`. -/
theorem priceBond_strictAnti (b : BondTerms) (y₁ y₂ : ℚ) (hface : 0 < b.face)
    (hcr : 0 ≤ b.couponRate) (hy : 0 < b.years) (hf : 1 ≤ b.freq)
    (h1 : 0 ≤ y₁) (h12 : y₁ < y₂) :
    priceBond { b with ytm := y₂ } < priceBond { b with ytm := y₁ } ∧
    priceBond { parTerms with ytm := 6/100 } < 1000 ∧
    1000 < priceBond { parTerms with ytm := 4/100 } := by
  refine ⟨priceBond_anti_aux b y₁ y₂ hface hcr hf h1 h12, ?_, ?_⟩
  · have h := priceBond_anti_aux parTerms (5/100) (6/100) (by norm_num [parTerms])
      (by norm_num [parTerms]) (by norm_num [parTerms]) (by norm_num) (by norm_num)
    have hpar : priceBond { parTerms with ytm := 5/100 } = 1000 :=
      (priceBond_par_aux { parTerms with ytm := 5/100 } rfl (by norm_num)).trans rfl
    rw [hpar] at h
    exact h
  · have h := priceBond_anti_aux parTerms (4/100) (5/100) (by norm_num [parTerms])
      (by norm_num [parTerms]) (by norm_num [parTerms]) (by norm_num) (by norm_num)
    have hpar : priceBond { parTerms with ytm := 5/100 } = 1000 :=
      (priceBond_par_aux { parTerms with ytm := 5/100 } rfl (by norm_num)).trans rfl
    rw [hpar] at h
    exact h

theorem priceBond_strictAnti_witness :
    0 < parTerms.face ∧ 0 ≤ parTerms.couponRate ∧ 0 < parTerms.years ∧
      1 ≤ parTerms.freq ∧ (0:ℚ) ≤ 4/100 ∧ (4/100 : ℚ) < 6/100 ∧
      priceBond { parTerms with ytm := 6/100 } <
        priceBond { parTerms with ytm := 4/100 } :=
  ⟨by norm_num [parTerms], by norm_num [parTerms], by norm_num [parTerms],
    by norm_num [parTerms], by norm_num, by norm_num,
    (priceBond_strictAnti parTerms (4/100) (6/100) (by norm_num [parTerms])
      (by norm_num [parTerms]) (by norm_num [parTerms]) (by norm_num [parTerms])
      (by norm_num) (by norm_num)).1⟩

/-- C7: `modifiedDuration` is `macaulayDuration` divided by `(1 + ytm/freq)`,
and under the data-model constraints (nonnegative face and coupon rate,
`freq ≥ 1`) it is at most the Macaulay duration whenever `ytm ≥ 0`. -/
theorem modifiedDuration_spec (b : BondTerms) :
    modifiedDuration b = macaulayDuration b / (1 + b.ytm / b.freq) ∧
    (0 ≤ b.face → 0 ≤ b.couponRate → 1 ≤ b.freq → 0 ≤ b.ytm →
      modifiedDuration b ≤ macaulayDuration b) := by
  refine ⟨rfl, ?_⟩
  intro hface hcr hf hytm
  have hr0 : (0:ℚ) ≤ b.ytm / b.freq := div_nonneg hytm (Nat.cast_nonneg _)
  have hc : 0 ≤ b.couponRate * b.face / b.freq :=
    div_nonneg (mul_nonneg hcr hface) (Nat.cast_nonneg _)
  have hDmac : 0 ≤ macaulayDuration b := by
    simp only [macaulayDuration]
    exact div_nonneg
      (durNum_nonneg hc hface (by linarith) _ _ _)
      (priceBond_nonneg b hface hcr hytm)
  rw [modifiedDuration]
  exact div_le_self hDmac (by linarith)

theorem modifiedDuration_spec_witness :
    0 ≤ parTerms.face ∧ 0 ≤ parTerms.couponRate ∧ 1 ≤ parTerms.freq ∧
      0 ≤ parTerms.ytm ∧ modifiedDuration parTerms ≤ macaulayDuration parTerms :=
  ⟨by norm_num [parTerms], by norm_num [parTerms], by norm_num [parTerms],
    by norm_num [parTerms],
    (modifiedDuration_spec parTerms).2 (by norm_num [parTerms])
      (by norm_num [parTerms]) (by norm_num [parTerms]) (by norm_num [parTerms])⟩

/-- C9: the Putable, Sinking Fund and Convertible flags have no effect on any
computed numeric output — two runs differing only in those flags return
identical prices, durations, current yield, yield-to-worst and chart points. -/
theorem computed_ignores_flags (face couponPct ytmPct years : ℚ) (freq : ℕ)
    (callable putable sinking convertible putable' sinking' convertible' : Bool) :
    computed face couponPct ytmPct years freq callable putable sinking convertible =
      computed face couponPct ytmPct years freq callable putable' sinking' convertible' :=
  rfl

/-- When the floor cannot bind (`ytm ≥ 0.0201`), a sampled grid yield is just
`ytm` plus the offset. -/
theorem gridYld_collapse {ytm : ℚ} (h : 201/10000 ≤ ytm) {i : ℕ} (hi : i ≤ 40) :
    gridYld ytm i = ytm + (-200 + 10 * (i:ℚ)) / 10000 := by
  rw [gridYld, sampleYld]
  have hcast : (((-200 + 10 * (i:ℤ)) : ℤ) : ℚ) = -200 + 10 * (i:ℚ) := by
    push_cast
    ring
  rw [hcast]
  refine max_eq_right ?_
  have h0 : (0:ℚ) ≤ (i:ℚ) := Nat.cast_nonneg i
  have hdiv : (-200 : ℚ) / 10000 ≤ (-200 + 10 * (i:ℚ)) / 10000 :=
    (div_le_div_iff_of_pos_right (by norm_num)).2 (by linarith)
  linarith

/-- C3 counterexample: at the (UI-reachable) input `ytm = 0`, the sampled-yield
sequence is not symmetric around `ytm`, because the 0.0001 floor truncates the
left half of the grid; the grid still has its 41 points. -/
theorem grid_not_symmetric_counterexample :
    (pointsList 1000 (5/100) 0 10 2 false).length = 41 ∧ ¬gridSymmetric 0 := by
  constructor
  · rw [pointsList, List.length_map, gridBps, List.length_map, List.length_range]
  · intro hsym
    have h := hsym 0 (by norm_num)
    have e0 : gridYld 0 0 = 1/10000 := by
      rw [gridYld, sampleYld]
      rw [max_eq_left (by push_cast; norm_num)]
    have e40 : gridYld 0 (40 - 0) = 2/100 := by
      rw [gridYld, sampleYld]
      rw [max_eq_right (by push_cast; norm_num)]
      push_cast
      norm_num
    rw [e0, e40] at h
    norm_num at h

/-- C3 (amended): the grid always has exactly 41 points whose `yld` fields are
the sampled yields (×100); the sampled-yield sequence is always non-decreasing,
and it is strictly increasing and symmetric around `ytm` whenever
`ytm ≥ 0.0201`, i.e. whenever the 0.0001 floor cannot bind. -/
theorem grid_mono_symmetric (face couponRate ytm years : ℚ) (freq : ℕ)
    (callable : Bool) :
    (pointsList face couponRate ytm years freq callable).length = 41 ∧
    (∀ i : ℕ, i < 40 → gridYld ytm i ≤ gridYld ytm (i + 1)) ∧
    (201/10000 ≤ ytm →
      (∀ i : ℕ, i < 40 → gridYld ytm i < gridYld ytm (i + 1)) ∧ gridSymmetric ytm) ∧
    (∀ i : ℕ, i < 41 →
      ((pointsList face couponRate ytm years freq callable).getD i ⟨0, 0, 0⟩).yld =
        gridYld ytm i * 100) := by
  have hlen : (pointsList face couponRate ytm years freq callable).length = 41 := by
    rw [pointsList, List.length_map, gridBps, List.length_map, List.length_range]
  refine ⟨hlen, ?_, ?_, ?_⟩
  · intro i hi
    rw [gridYld, gridYld, sampleYld, sampleYld]
    refine max_le_max le_rfl ?_
    have hle : (((-200 + 10 * (i:ℤ)) : ℤ) : ℚ) ≤ (((-200 + 10 * ((i+1:ℕ):ℤ)) : ℤ) : ℚ) := by
      push_cast
      linarith
    have hdiv := (div_le_div_iff_of_pos_right (show (0:ℚ) < 10000 by norm_num)).2 hle
    linarith
  · intro h
    constructor
    · intro i hi
      rw [gridYld_collapse h (by omega), gridYld_collapse h (by omega)]
      have : ((i + 1 : ℕ) : ℚ) = (i:ℚ) + 1 := by push_cast; ring
      rw [this]
      have h10 : (0:ℚ) < 10000 := by norm_num
      have := (div_lt_div_iff_of_pos_right h10).2
        (show (-200 + 10 * (i:ℚ)) < -200 + 10 * ((i:ℚ) + 1) by linarith)
      linarith
    · intro i hi
      rw [gridYld_collapse h (by omega), gridYld_collapse h (by omega : 40 - i ≤ 40)]
      have hcast : ((40 - i : ℕ) : ℚ) = 40 - (i:ℚ) := by
        exact_mod_cast Nat.cast_sub hi (R := ℚ)
      rw [hcast]
      ring
  · intro i hi
    have hi' : i < (pointsList face couponRate ytm years freq callable).length := by
      rw [hlen]; exact hi
    rw [List.getD_eq_getElem _ _ hi']
    simp only [pointsList, List.getElem_map, gridBps, List.getElem_range]
    cases callable <;> simp [gridPoint, gridYld]

theorem grid_mono_symmetric_witness :
    (pointsList 1000 (5/100) (5/100) 10 2 false).length = 41 ∧
    (201/10000 ≤ (5/100 : ℚ)) ∧ gridSymmetric (5/100) :=
  ⟨(grid_mono_symmetric 1000 (5/100) (5/100) 10 2 false).1, by norm_num,
    ((grid_mono_symmetric 1000 (5/100) (5/100) 10 2 false).2.2.1 (by norm_num)).2⟩

/-- C10: with `callable = false`, every one of the 41 grid points carries a
"Price (Callable est)" value equal to its non-callable price. -/
theorem points_callable_est_degenerate (face couponRate ytm years : ℚ) (freq : ℕ)
    (i : ℕ) (hi : i < 41) :
    (pointsList face couponRate ytm years freq false).length = 41 ∧
    ((pointsList face couponRate ytm years freq false).getD i ⟨0, 0, 0⟩).priceCallable =
      ((pointsList face couponRate ytm years freq false).getD i ⟨0, 0, 0⟩).price := by
  have hlen : (pointsList face couponRate ytm years freq false).length = 41 := by
    rw [pointsList, List.length_map, gridBps, List.length_map, List.length_range]
  refine ⟨hlen, ?_⟩
  have hi' : i < (pointsList face couponRate ytm years freq false).length := by
    rw [hlen]; exact hi
  rw [List.getD_eq_getElem _ _ hi']
  simp [pointsList, gridPoint]

theorem points_callable_est_degenerate_witness :
    (0:ℕ) < 41 ∧
    ((pointsList 1000 (5/100) (5/100) 10 2 false).getD 0 ⟨0, 0, 0⟩).priceCallable =
      ((pointsList 1000 (5/100) (5/100) 10 2 false).getD 0 ⟨0, 0, 0⟩).price :=
  ⟨by norm_num,
    (points_callable_est_degenerate 1000 (5/100) (5/100) 10 2 0 (by norm_num)).2⟩

/-- C8 (amended): for a callable bond with call price equal to face, positive
face and maturity, `freq ≥ 1`, a call date in `(0, years]` and a nonnegative
yield below the coupon rate, the yield-to-worst approximation never exceeds
`ytm` (equality can occur, e.g. when the call date coincides with maturity). -/
theorem ytw_le_ytm (b : BondTerms) (hc : b.callable = true)
    (hcp : b.callPrice = b.face) (hface : 0 < b.face) (hy : 0 < b.years)
    (hf : 1 ≤ b.freq) (hcy1 : 0 < b.callYears) (hcy2 : b.callYears ≤ b.years)
    (hytm1 : 0 ≤ b.ytm) (hytm2 : b.ytm < b.couponRate) :
    yieldToWorstApprox b ≤ b.ytm := by
  rw [ytw_callable_eq b hc]
  exact min_le_left _ _

theorem ytw_le_ytm_witness :
    cexTerms.callable = true ∧ cexTerms.callPrice = cexTerms.face ∧
    0 < cexTerms.face ∧ 0 < cexTerms.years ∧ 1 ≤ cexTerms.freq ∧
    0 < cexTerms.callYears ∧ cexTerms.callYears ≤ cexTerms.years ∧
    0 ≤ cexTerms.ytm ∧ cexTerms.ytm < cexTerms.couponRate ∧
    yieldToWorstApprox cexTerms ≤ cexTerms.ytm :=
  ⟨rfl, rfl, by norm_num [cexTerms], by norm_num [cexTerms], by norm_num [cexTerms],
    by norm_num [cexTerms], by norm_num [cexTerms], by norm_num [cexTerms],
    by norm_num [cexTerms],
    ytw_le_ytm cexTerms rfl rfl (by norm_num [cexTerms]) (by norm_num [cexTerms])
      (by norm_num [cexTerms]) (by norm_num [cexTerms]) (by norm_num [cexTerms])
      (by norm_num [cexTerms]) (by norm_num [cexTerms])⟩

/-- C8 counterexample: `cexTerms` satisfies every hypothesis of the claim
(callable, call at par, priced above par), yet the yield-to-worst
approximation returns exactly `ytm = 0.04`, not a strictly smaller value: the
call date equals maturity, so the bisection target is the price to call
itself, the implied per-period rate converges to `ytm/freq = 0.02`, and
annualising it by compounding gives `(1.02)² - 1 > 0.04`. -/
theorem ytw_not_lt_counterexample :
    cexTerms.callable = true ∧ cexTerms.callPrice = cexTerms.face ∧
    0 < cexTerms.face ∧ 0 < cexTerms.years ∧ 1 ≤ cexTerms.freq ∧
    0 < cexTerms.callYears ∧ cexTerms.callYears ≤ cexTerms.years ∧
    0 ≤ cexTerms.ytm ∧ cexTerms.ytm < cexTerms.couponRate ∧
    ¬yieldToWorstApprox cexTerms < cexTerms.ytm := by
  refine ⟨rfl, rfl, by norm_num [cexTerms], by norm_num [cexTerms],
    by norm_num [cexTerms], by norm_num [cexTerms], by norm_num [cexTerms],
    by norm_num [cexTerms], by norm_num [cexTerms], ?_⟩
  have e1 : cexTerms.couponRate * cexTerms.face / (cexTerms.freq:ℚ) = 25 := by
    norm_num [cexTerms]
  have e2 : cexTerms.callPrice = (1000:ℚ) := rfl
  have e3 : nPeriods cexTerms.callYears cexTerms.freq = 2 := by
    with_unfolding_all rfl
  have e4 : cexTerms.freq = 2 := rfl
  have e5 : cexTerms.ytm = 4/100 := rfl
  have hN : nPeriods cexTerms.years cexTerms.freq = 2 := by
    with_unfolding_all rfl
  have hTval : priceBond cexTerms = pvAt 25 1000 (2/100) 2 := by
    simp only [priceBond, hN, pvAt]
    norm_num [cexTerms, pvCoupons]
  have hlo0 : pvAt 25 1000 (-(99/100)) 2 > priceBond cexTerms := by
    rw [hTval]
    norm_num [pvAt, pvCoupons]
  have hhi0 : ¬pvAt 25 1000 1 2 > priceBond cexTerms := by
    rw [hTval]
    norm_num [pvAt, pvCoupons]
  obtain ⟨hL1, hL2, hL12, hw⟩ :=
    bisect_nest 25 1000 (priceBond cexTerms) 2 60 (-(99/100), 1)
      (show (-(99/100):ℚ) ≤ 1 by norm_num)
  obtain ⟨hblo, hbhi⟩ :=
    bisect_bracket 25 1000 (priceBond cexTerms) 2 60 (-(99/100), 1) hlo0 hhi0
  set L := bisect 25 1000 (priceBond cexTerms) 2 60 (-(99/100), 1) with hLdef
  have hw' : L.2 - L.1 = (199/100) / 2 ^ 60 := by
    rw [hw]
    norm_num
  have hL1lo : -(99/100) ≤ L.1 := hL1
  have hroot : (2:ℚ)/100 ≤ L.2 := by
    by_contra hlt
    push_neg at hlt
    have h1p : (0:ℚ) < 1 + L.2 := by linarith
    have hanti : pvAt 25 1000 (2/100) 2 < pvAt 25 1000 L.2 2 :=
      pvAt_strictAnti (by norm_num) (by norm_num) h1p hlt (by norm_num)
    rw [← hTval] at hanti
    exact hbhi hanti
  have hrmid : (199:ℚ)/10000 ≤ (L.1 + L.2) / 2 := by
    have hwsmall : ((199:ℚ)/100) / 2 ^ 60 ≤ 1/10000 := by norm_num
    linarith
  have hpow : ((1:ℚ) + 199/10000) ^ 2 ≤ (1 + (L.1 + L.2) / 2) ^ 2 :=
    pow_le_pow_left₀ (by norm_num) (by linarith) 2
  have hval : ((1:ℚ) + 199/10000) ^ 2 = 104019601/100000000 := by norm_num
  have hytc : (4:ℚ)/100 ≤ (1 + (L.1 + L.2) / 2) ^ 2 - 1 := by
    rw [hval] at hpow
    linarith
  rw [ytw_callable_eq cexTerms rfl, e1, e2, e3, e4, e5, ← hLdef]
  exact not_lt.2 (le_min le_rfl (le_trans hytc (le_max_right _ _)))

/-- C4 (amended): every sampled grid yield equals
`max(0.0001, ytm + bps/10000)`, hence is at least `0.0001` and positive, and
the non-callable price of each grid point is `priceBond` at exactly that
floored yield.  (The callable-estimate call site is *not* covered: it can
receive a negative rate — see the counterexample.) -/
theorem sampleYld_floor_spec (face couponRate ytm years : ℚ) (freq : ℕ)
    (callable : Bool) (bps : ℤ) (hbps : bps ∈ gridBps) :
    sampleYld ytm bps = max (1/10000) (ytm + (bps:ℚ)/10000) ∧
    1/10000 ≤ sampleYld ytm bps ∧ 0 < sampleYld ytm bps ∧
    (gridPoint face couponRate ytm years freq callable bps).price =
      priceBond { face := face, couponRate := couponRate,
                  ytm := sampleYld ytm bps, years := years, freq := freq } := by
  refine ⟨rfl, le_max_left _ _, lt_of_lt_of_le (by norm_num) (le_max_left _ _), ?_⟩
  cases callable <;> rfl

theorem sampleYld_floor_spec_witness :
    (-200:ℤ) ∈ gridBps ∧
    1/10000 ≤ sampleYld (5/100) (-200) ∧ 0 < sampleYld (5/100) (-200) :=
  ⟨List.mem_map.2 ⟨0, List.mem_range.2 (by norm_num), by norm_num⟩,
    (sampleYld_floor_spec 1000 (5/100) (5/100) 10 2 false (-200)
      (List.mem_map.2 ⟨0, List.mem_range.2 (by norm_num), by norm_num⟩)).2.1,
    (sampleYld_floor_spec 1000 (5/100) (5/100) 10 2 false (-200)
      (List.mem_map.2 ⟨0, List.mem_range.2 (by norm_num), by norm_num⟩)).2.2.1⟩

/-- C4 counterexample: at the UI-reachable inputs `face=1000, couponPct=5,
ytmPct=0, years=4, freq=1` with the callable flag set, the grid point at
offset `bps = -200` hands `priceBond` the yield-to-worst estimate of the
floored sampled yield — and that estimate is negative (the bond is far above
the par call price, so the implied yield to call is about `-4.3%`), so a
`priceBond` call inside the sampler does receive a non-positive rate. -/
theorem grid_callable_rate_negative_counterexample :
    (-200:ℤ) ∈ gridBps ∧
    (gridPoint 1000 (5/100) 0 4 1 true (-200)).priceCallable =
      priceBond { face := 1000, couponRate := 5/100,
                  ytm := gridCallableRate 1000 (5/100) 0 4 1 (-200),
                  years := 4, freq := 1 } ∧
    gridCallableRate 1000 (5/100) 0 4 1 (-200) < 0 := by
  refine ⟨List.mem_map.2 ⟨0, List.mem_range.2 (by norm_num), by norm_num⟩, rfl, ?_⟩
  have hs : sampleYld 0 (-200) = 1/10000 := by
    rw [sampleYld, max_eq_left (by push_cast; norm_num)]
  have hcy : callYearsOf 4 = 2 := by with_unfolding_all rfl
  have hB : gridCallableRate 1000 (5/100) 0 4 1 (-200) = yieldToWorstApprox c4Terms := by
    rw [gridCallableRate, hs, hcy]
    rfl
  rw [hB]
  have e1 : c4Terms.couponRate * c4Terms.face / (c4Terms.freq:ℚ) = 50 := by
    norm_num [c4Terms]
  have e2 : c4Terms.callPrice = (1000:ℚ) := rfl
  have e3 : nPeriods c4Terms.callYears c4Terms.freq = 2 := by
    with_unfolding_all rfl
  have e4 : c4Terms.freq = 1 := rfl
  have e5 : c4Terms.ytm = 1/10000 := rfl
  have hN : nPeriods c4Terms.years c4Terms.freq = 4 := by
    with_unfolding_all rfl
  have hTval : priceBond c4Terms = pvAt 50 1000 (1/10000) 4 := by
    simp only [priceBond, hN, pvAt]
    norm_num [c4Terms, pvCoupons]
  have hlo0 : pvAt 50 1000 (-(99/100)) 2 > priceBond c4Terms := by
    rw [hTval]
    norm_num [pvAt, pvCoupons]
  have hhi0 : ¬pvAt 50 1000 1 2 > priceBond c4Terms := by
    rw [hTval]
    norm_num [pvAt, pvCoupons]
  have hmark : pvAt 50 1000 (-(4/100)) 2 < priceBond c4Terms := by
    rw [hTval]
    norm_num [pvAt, pvCoupons]
  obtain ⟨hL1, hL2, hL12, hw⟩ :=
    bisect_nest 50 1000 (priceBond c4Terms) 2 60 (-(99/100), 1)
      (show (-(99/100):ℚ) ≤ 1 by norm_num)
  obtain ⟨hblo, hbhi⟩ :=
    bisect_bracket 50 1000 (priceBond c4Terms) 2 60 (-(99/100), 1) hlo0 hhi0
  set L := bisect 50 1000 (priceBond c4Terms) 2 60 (-(99/100), 1) with hLdef
  have hw' : L.2 - L.1 = (199/100) / 2 ^ 60 := by
    rw [hw]
    norm_num
  have hL1lo : -(99/100) ≤ L.1 := hL1
  have hL1hi : L.1 < -(4/100) := by
    by_contra hge
    push_neg at hge
    rcases eq_or_lt_of_le hge with heq | hlt
    · rw [heq] at hmark
      exact absurd hblo (by linarith)
    · have hanti : pvAt 50 1000 L.1 2 < pvAt 50 1000 (-(4/100)) 2 :=
        pvAt_strictAnti (by norm_num) (by norm_num) (by norm_num) hlt (by norm_num)
      exact absurd hblo (by linarith)
  have hrmidneg : (L.1 + L.2) / 2 < 0 := by
    have hwsmall : ((199:ℚ)/100) / 2 ^ 60 ≤ 1/10000 := by norm_num
    linarith
  rw [ytw_callable_eq c4Terms rfl, e1, e2, e3, e4, e5, ← hLdef]
  have hytc : (1 + (L.1 + L.2) / 2) ^ (1:ℕ) - 1 = (L.1 + L.2) / 2 := by
    rw [pow_one]
    ring
  rw [hytc]
  exact lt_of_le_of_lt (min_le_right _ _) (max_lt (by norm_num) hrmidneg)

end BondTool
